import Mathlib

/-!
# rabbitmq-http: the batch decoder and the request handlers

A shallow embedding of `damon-rabbitmq-http.go`.

* Go strings are byte sequences: `GoString` is a list of bytes, and every
  length below is a byte length.
* The functions of Go's `strings` package that `formbody` and `mysplit` use
  (`HasPrefix`, `HasSuffix`, `Index`, `Split`) are written out after their
  documented behaviour.
* A slice expression out of range is a run-time panic in Go; here the
  function returns `Except.error`.
* The broker is an arbitrary function from the calls made so far and the
  current call to an optional error; a session carries the calls made so far.
-/

namespace RabbitmqHttp

/-! ## Go strings -/

/-- One byte. -/
abbrev Byte := Fin 256

/-- A Go string: a sequence of bytes. -/
abbrev GoString := List Byte

/-- The bytes of an ASCII literal of the source (one byte per character). -/
def lit (s : String) : GoString := s.toList.map (fun c => Fin.ofNat c.toNat)

/-- The byte 0x7B, an opening brace. -/
def lbrace : Byte := 123

/-- The byte 0x7D, a closing brace. -/
def rbrace : Byte := 125

/-- The byte 0x2C, a comma. -/
def comma : Byte := 44

/-- The separator of `mysplit`: a closing brace, a comma, an opening brace. -/
def sep : GoString := [rbrace, comma, lbrace]

/-- Go's `strings.HasPrefix(s, pre)`. -/
def HasPrefix (s pre : GoString) : Bool := pre.isPrefixOf s

/-- Go's `strings.HasSuffix(s, suf)`. -/
def HasSuffix (s suf : GoString) : Bool := suf.isSuffixOf s

/-- Go's `strings.Index(s, sub)`: the offset of the first occurrence of `sub`
in `s`, or `none` (Go: `-1`) when there is none. -/
def Index : GoString → GoString → Option Nat
  | [], sub => if sub.isPrefixOf [] then some 0 else none
  | c :: t, sub =>
    if sub.isPrefixOf (c :: t) then some 0 else (Index t sub).map (· + 1)

/-- The loop of Go's `strings.Split` (`genSplit`) for a non-empty separator:
cut at the first occurrence, continue behind it, at most `n` cuts; what is then
left is the last piece. -/
def splitLoop : Nat → GoString → GoString → List GoString
  | 0, s, _ => [s]
  | n + 1, s, sp =>
    match Index s sp with
    | none => [s]
    | some m => s.take m :: splitLoop n (s.drop (m + sp.length)) sp

/-- Go's `strings.Split(s, sp)` for a non-empty separator `sp`. Go bounds the
loop by the number of occurrences, which is at most `len(s)`; the loop stops by
itself when no occurrence is left, so any bound from `len(s)` on gives the same
pieces (`splitLoop_eq_Split`), and joining the pieces with `sp` gives `s` back
(`Split_join`). The empty separator, for which Go cuts after every UTF-8
sequence, is never passed by this program. -/
def Split (s sp : GoString) : List GoString := splitLoop s.length s sp

/-- Go's slice expression `s[lo:hi]` on a string: defined when
`0 ≤ lo ≤ hi ≤ len(s)`; a run-time panic otherwise (`none`). -/
def slice (s : GoString) (lo hi : Int) : Option GoString :=
  if 0 ≤ lo ∧ lo ≤ hi ∧ hi ≤ (s.length : Int) then
    some ((s.take hi.toNat).drop lo.toNat)
  else none

/-! ## The batch decoder -/

/-- The failure of the batch decoder. In Go it is the run-time panic
"slice bounds out of range" of `s[1 : len(s)-1]`. -/
inductive DecodeError where
  | InputTooShort
  deriving DecidableEq, Repr

deriving instance DecidableEq for Except

/-- Source `mysplit`: `ss := s[1 : len(s)-1]; return strings.Split(ss, sep)`. -/
def mysplit (s : GoString) : Except DecodeError (List GoString) :=
  match slice s 1 ((s.length : Int) - 1) with
  | none => .error .InputTooShort
  | some ss => .ok (Split ss sep)

/-- One pass of the `for` loop of `formbody` over a fragment `v`: three
independent `if` statements, each appending to `results`. -/
def formbodyStep (results : List GoString) (v : GoString) : List GoString :=
  let results :=
    if !HasPrefix v [lbrace] && HasSuffix v [rbrace] then results ++ [[lbrace] ++ v]
    else results
  let results :=
    if !HasSuffix v [rbrace] && HasPrefix v [lbrace] then results ++ [v ++ [rbrace]]
    else results
  let results :=
    if !HasPrefix v [lbrace] && !HasSuffix v [rbrace] then
      results ++ [[lbrace] ++ v ++ [rbrace]]
    else results
  results

/-- Source `formbody`: `results := make([]string, len(ret))` is a slice of
`len(ret)` empty strings, to which the loop appends. -/
def formbody (source : GoString) : Except DecodeError (List GoString) :=
  match mysplit source with
  | .error e => .error e
  | .ok ret => .ok (ret.foldl formbodyStep (List.replicate ret.length []))

/-! ## Request entities -/

/-- Source `MessageEntity`. -/
structure MessageEntity where
  Exchange : GoString
  Key : GoString
  DeliveryMode : Byte
  Priority : Byte
  Body : GoString

/-- Source `ExchangeEntity`. -/
structure ExchangeEntity where
  Name : GoString
  /-- Source field `Type` (a keyword here). -/
  Typ : GoString
  Durable : Bool
  AutoDelete : Bool
  NoWait : Bool

/-- Source `QueueEntity`. -/
structure QueueEntity where
  Name : GoString
  Durable : Bool
  AutoDelete : Bool
  Exclusive : Bool
  NoWait : Bool

/-- Source `QueueBindEntity`. -/
structure QueueBindEntity where
  Queue : GoString
  Exchange : GoString
  NoWait : Bool
  Keys : List GoString

/-! ## The broker and the session -/

/-- The text of a Go `error` (`err.Error()`). -/
abbrev ErrText := GoString

/-- The calls the program makes on the amqp client, with the arguments the
source passes (headers, content type and argument tables are constants of the
source and left out). -/
inductive BrokerCall where
  /-- `amqp.Dial(*amqpUri)`. -/
  | Dial
  /-- `conn.Channel()`. -/
  | Channel
  /-- `channel.Publish(exchange, key, mandatory, immediate, msg)`. -/
  | Publish (exchange key : GoString) (mandatory immediate : Bool)
      (deliveryMode priority : Byte) (body : GoString)
  /-- `channel.ExchangeDeclare(name, kind, durable, autoDelete, internal, noWait, nil)`. -/
  | ExchangeDeclare (name typ : GoString) (durable autoDelete internal noWait : Bool)
  /-- `channel.ExchangeDelete(name, ifUnused, noWait)`. -/
  | ExchangeDelete (name : GoString) (ifUnused noWait : Bool)
  /-- `channel.QueueDeclare(name, durable, autoDelete, exclusive, noWait, nil)`. -/
  | QueueDeclare (name : GoString) (durable autoDelete exclusive noWait : Bool)
  /-- `channel.QueueDelete(name, ifUnused, ifEmpty, noWait)`. -/
  | QueueDelete (name : GoString) (ifUnused ifEmpty noWait : Bool)
  /-- `channel.QueueBind(queue, key, exchange, noWait, nil)`. -/
  | QueueBind (queue key exchange : GoString) (noWait : Bool)
  /-- `channel.QueueUnbind(queue, key, exchange, nil)`. -/
  | QueueUnbind (queue key exchange : GoString)
  /-- `channel.Consume(queue, consumer, autoAck, exclusive, noLocal, noWait, nil)`. -/
  | Consume (queue consumer : GoString) (autoAck exclusive noLocal noWait : Bool)
  /-- `conn.Close()`. -/
  | Close
  deriving DecidableEq

/-- A broker behaviour: given the calls made so far on the session and the
current call, no error (`none`) or the error returned. -/
abbrev Broker := List BrokerCall → BrokerCall → Option ErrText

/-- Source `RabbitMQ`: the session. The model keeps the calls made on its
connection and channel, oldest first. -/
structure RabbitMQ where
  calls : List BrokerCall

/-- One call on the amqp client: it is recorded and the broker answers. -/
def RabbitMQ.call (b : Broker) (r : RabbitMQ) (c : BrokerCall) : RabbitMQ × Option ErrText :=
  (⟨r.calls ++ [c]⟩, b r.calls c)

/-- Source `RabbitMQ.Connect`: dial, then open a channel. -/
def RabbitMQ.Connect (b : Broker) (r : RabbitMQ) : RabbitMQ × Option ErrText :=
  match r.call b .Dial with
  | (r, some err) => (r, some err)
  | (r, none) => r.call b .Channel

/-- Source `RabbitMQ.Publish`. -/
def RabbitMQ.Publish (b : Broker) (r : RabbitMQ) (exchange key : GoString)
    (deliverymode priority : Byte) (body : GoString) : RabbitMQ × Option ErrText :=
  r.call b (.Publish exchange key false false deliverymode priority body)

/-- Source `RabbitMQ.DeclareExchange`. -/
def RabbitMQ.DeclareExchange (b : Broker) (r : RabbitMQ) (name typ : GoString)
    (durable autodelete nowait : Bool) : RabbitMQ × Option ErrText :=
  r.call b (.ExchangeDeclare name typ durable autodelete false nowait)

/-- Source `RabbitMQ.DeleteExchange`. -/
def RabbitMQ.DeleteExchange (b : Broker) (r : RabbitMQ) (name : GoString) :
    RabbitMQ × Option ErrText :=
  r.call b (.ExchangeDelete name false false)

/-- Source `RabbitMQ.DeclareQueue`. -/
def RabbitMQ.DeclareQueue (b : Broker) (r : RabbitMQ) (name : GoString)
    (durable autodelete exclusive nowait : Bool) : RabbitMQ × Option ErrText :=
  r.call b (.QueueDeclare name durable autodelete exclusive nowait)

/-- Source `RabbitMQ.DeleteQueue`. -/
def RabbitMQ.DeleteQueue (b : Broker) (r : RabbitMQ) (name : GoString) :
    RabbitMQ × Option ErrText :=
  r.call b (.QueueDelete name false false false)

/-- Source `RabbitMQ.BindQueue`: one `QueueBind` per key, returning at the
first error. -/
def RabbitMQ.BindQueue (b : Broker) (queue exchange : GoString) (nowait : Bool) :
    List GoString → RabbitMQ → RabbitMQ × Option ErrText
  | [], r => (r, none)
  | key :: keys, r =>
    match r.call b (.QueueBind queue key exchange nowait) with
    | (r, some err) => (r, some err)
    | (r, none) => RabbitMQ.BindQueue b queue exchange nowait keys r

/-- Source `RabbitMQ.UnBindQueue`: one `QueueUnbind` per key, returning at the
first error. -/
def RabbitMQ.UnBindQueue (b : Broker) (queue exchange : GoString) :
    List GoString → RabbitMQ → RabbitMQ × Option ErrText
  | [], r => (r, none)
  | key :: keys, r =>
    match r.call b (.QueueUnbind queue key exchange) with
    | (r, some err) => (r, some err)
    | (r, none) => RabbitMQ.UnBindQueue b queue exchange keys r

/-- Source `RabbitMQ.ConsumeQueue`, up to the registration of the consumer
(the goroutine it starts on success is not part of the model). -/
def RabbitMQ.ConsumeQueue (b : Broker) (r : RabbitMQ) (queue : GoString) :
    RabbitMQ × Option ErrText :=
  r.call b (.Consume queue [] true false false false)

/-- Source `RabbitMQ.Close`. -/
def RabbitMQ.Close (b : Broker) (r : RabbitMQ) : RabbitMQ × Option ErrText :=
  r.call b .Close

/-! ## The HTTP side -/

/-- What a handler does on its `http.ResponseWriter`. -/
inductive WriterCall where
  /-- `http.Error(w, text, code)`. -/
  | Error (text : ErrText) (code : Nat)
  /-- `w.Write(body)`. -/
  | Write (body : GoString)
  /-- `w.WriteHeader(code)`. -/
  | WriteHeader (code : Nat)
  /-- `fmt.Fprintln(w, text)`. -/
  | Fprintln (text : GoString)
  deriving DecidableEq

/-- Go's `http.StatusInternalServerError`. -/
def StatusInternalServerError : Nat := 500

/-- Go's `http.StatusMethodNotAllowed`. -/
def StatusMethodNotAllowed : Nat := 405

/-- What a handler reads of its `*http.Request`. -/
structure Request where
  /-- `r.Method`. -/
  Method : GoString
  /-- The result of `ioutil.ReadAll(r.Body)`. -/
  Body : Except ErrText GoString
  /-- `r.Form["name"]` after `r.ParseForm()`. -/
  FormName : List GoString

/-- How a handler invocation ends. -/
inductive Finish where
  /-- The handler function returned. -/
  | returned
  /-- A run-time panic left the handler (deferred calls have run). -/
  | panicked
  /-- The handler entered the endless `for` loop of the streaming route. -/
  | streaming
  deriving DecidableEq

/-- The observable effects of one handler invocation. -/
structure Outcome where
  /-- The calls made on the amqp client, in order. -/
  calls : List BrokerCall
  /-- The calls made on the response writer, in order. -/
  writes : List WriterCall
  finish : Finish
  deriving DecidableEq

/-- The effect of `defer rabbit.Close()` on the rest of the handler body:
when the body returns or panics, `Close` is called on the session and its
result is discarded. -/
def deferClose (b : Broker) (rest : RabbitMQ × List WriterCall × Finish) : Outcome :=
  match rest with
  | (rabbit, writes, .streaming) => ⟨rabbit.calls, writes, .streaming⟩
  | (rabbit, writes, fin) => ⟨(rabbit.Close b).1.calls, writes, fin⟩

/-- The `for _, value := range formbody(entity.Body)` loop of `PublishHandler`:
publish each value, leaving at the first error. -/
def publishLoop (b : Broker) (entity : MessageEntity) :
    List GoString → RabbitMQ → RabbitMQ × Option ErrText
  | [], rabbit => (rabbit, none)
  | value :: values, rabbit =>
    match rabbit.Publish b entity.Exchange entity.Key entity.DeliveryMode entity.Priority value with
    | (rabbit, some err) => (rabbit, some err)
    | (rabbit, none) => publishLoop b entity values rabbit

/-- Source `PublishHandler`. `unmarshal` is `json.Unmarshal` into a
`MessageEntity`. Output on the standard output and the log is left out. -/
def PublishHandler (b : Broker) (unmarshal : GoString → Except ErrText MessageEntity)
    (r : Request) : Outcome :=
  if r.Method = lit "POST" then
    match r.Body with
    | .error err => ⟨[], [.Error err StatusInternalServerError], .returned⟩
    | .ok body =>
      match unmarshal body with
      | .error err => ⟨[], [.Error err StatusInternalServerError], .returned⟩
      | .ok entity =>
        match RabbitMQ.Connect b ⟨[]⟩ with
        | (rabbit, some err) => ⟨rabbit.calls, [.Error err StatusInternalServerError], .returned⟩
        | (rabbit, none) =>
          deferClose b <|
            match formbody entity.Body with
            | .error _ => (rabbit, [], .panicked)
            | .ok values =>
              match publishLoop b entity values rabbit with
              | (rabbit, some err) => (rabbit, [.Error err StatusInternalServerError], .returned)
              | (rabbit, none) => (rabbit, [.Write (lit "publish message ok")], .returned)
  else ⟨[], [.WriteHeader StatusMethodNotAllowed], .returned⟩

/-- Source `ExchangeHandler`. -/
def ExchangeHandler (b : Broker) (unmarshal : GoString → Except ErrText ExchangeEntity)
    (r : Request) : Outcome :=
  if r.Method = lit "POST" ∨ r.Method = lit "DELETE" then
    match r.Body with
    | .error err => ⟨[], [.Error err StatusInternalServerError], .returned⟩
    | .ok body =>
      match unmarshal body with
      | .error err => ⟨[], [.Error err StatusInternalServerError], .returned⟩
      | .ok entity =>
        match RabbitMQ.Connect b ⟨[]⟩ with
        | (rabbit, some err) => ⟨rabbit.calls, [.Error err StatusInternalServerError], .returned⟩
        | (rabbit, none) =>
          deferClose b <|
            if r.Method = lit "POST" then
              match rabbit.DeclareExchange b entity.Name entity.Typ entity.Durable
                  entity.AutoDelete entity.NoWait with
              | (rabbit, some err) => (rabbit, [.Error err StatusInternalServerError], .returned)
              | (rabbit, none) => (rabbit, [.Write (lit "declare exchange ok")], .returned)
            else if r.Method = lit "DELETE" then
              match rabbit.DeleteExchange b entity.Name with
              | (rabbit, some err) => (rabbit, [.Error err StatusInternalServerError], .returned)
              | (rabbit, none) => (rabbit, [.Write (lit "delete exchange ok")], .returned)
            else (rabbit, [], .returned)
  else ⟨[], [.WriteHeader StatusMethodNotAllowed], .returned⟩

/-- Source `QueueBindHandler`. -/
def QueueBindHandler (b : Broker) (unmarshal : GoString → Except ErrText QueueBindEntity)
    (r : Request) : Outcome :=
  if r.Method = lit "POST" ∨ r.Method = lit "DELETE" then
    match r.Body with
    | .error err => ⟨[], [.Error err StatusInternalServerError], .returned⟩
    | .ok body =>
      match unmarshal body with
      | .error err => ⟨[], [.Error err StatusInternalServerError], .returned⟩
      | .ok entity =>
        match RabbitMQ.Connect b ⟨[]⟩ with
        | (rabbit, some err) => ⟨rabbit.calls, [.Error err StatusInternalServerError], .returned⟩
        | (rabbit, none) =>
          deferClose b <|
            if r.Method = lit "POST" then
              match RabbitMQ.BindQueue b entity.Queue entity.Exchange entity.NoWait
                  entity.Keys rabbit with
              | (rabbit, some err) => (rabbit, [.Error err StatusInternalServerError], .returned)
              | (rabbit, none) => (rabbit, [.Write (lit "bind queue ok")], .returned)
            else if r.Method = lit "DELETE" then
              match RabbitMQ.UnBindQueue b entity.Queue entity.Exchange entity.Keys rabbit with
              | (rabbit, some err) => (rabbit, [.Error err StatusInternalServerError], .returned)
              | (rabbit, none) => (rabbit, [.Write (lit "unbind queue ok")], .returned)
            else (rabbit, [], .returned)
  else ⟨[], [.WriteHeader StatusMethodNotAllowed], .returned⟩

/-- The `for _, name := range r.Form["name"]` loop of `QueueHandler`: register
one consumer per name, leaving at the first error. -/
def consumeLoop (b : Broker) : List GoString → RabbitMQ → RabbitMQ × Option ErrText
  | [], rabbit => (rabbit, none)
  | name :: names, rabbit =>
    match rabbit.ConsumeQueue b name with
    | (rabbit, some err) => (rabbit, some err)
    | (rabbit, none) => consumeLoop b names rabbit

/-- Source `QueueHandler`. On `GET`, once the consumers are registered the
handler never leaves its `for` loop: the outcome ends in `streaming` and lists
what was done before the loop. -/
def QueueHandler (b : Broker) (unmarshal : GoString → Except ErrText QueueEntity)
    (r : Request) : Outcome :=
  if r.Method = lit "POST" ∨ r.Method = lit "DELETE" then
    match r.Body with
    | .error err => ⟨[], [.Error err StatusInternalServerError], .returned⟩
    | .ok body =>
      match unmarshal body with
      | .error err => ⟨[], [.Error err StatusInternalServerError], .returned⟩
      | .ok entity =>
        match RabbitMQ.Connect b ⟨[]⟩ with
        | (rabbit, some err) => ⟨rabbit.calls, [.Error err StatusInternalServerError], .returned⟩
        | (rabbit, none) =>
          deferClose b <|
            if r.Method = lit "POST" then
              match rabbit.DeclareQueue b entity.Name entity.Durable entity.AutoDelete
                  entity.Exclusive entity.NoWait with
              | (rabbit, some err) => (rabbit, [.Error err StatusInternalServerError], .returned)
              | (rabbit, none) => (rabbit, [.Write (lit "declare queue ok")], .returned)
            else if r.Method = lit "DELETE" then
              match rabbit.DeleteQueue b entity.Name with
              | (rabbit, some err) => (rabbit, [.Error err StatusInternalServerError], .returned)
              | (rabbit, none) => (rabbit, [.Write (lit "delete queue ok")], .returned)
            else (rabbit, [], .returned)
  else if r.Method = lit "GET" then
    match RabbitMQ.Connect b ⟨[]⟩ with
    | (rabbit, some err) =>
      ⟨rabbit.calls, [.Fprintln (lit " in get queue"), .Error err StatusInternalServerError],
        .returned⟩
    | (rabbit, none) =>
      deferClose b <|
        match consumeLoop b r.FormName rabbit with
        | (rabbit, some err) =>
          (rabbit, [.Fprintln (lit " in get queue"), .Error err StatusInternalServerError],
            .returned)
        | (rabbit, none) =>
          (rabbit, [.Fprintln (lit " in get queue"), .Write [], .Fprintln (lit " in get queue")],
            .streaming)
  else ⟨[], [.WriteHeader StatusMethodNotAllowed], .returned⟩

/-- An invocation of one of the four handlers: the JSON decoder for its
entity and the request. -/
inductive Invocation where
  | exchange (unmarshal : GoString → Except ErrText ExchangeEntity) (r : Request)
  | queueBind (unmarshal : GoString → Except ErrText QueueBindEntity) (r : Request)
  | publish (unmarshal : GoString → Except ErrText MessageEntity) (r : Request)
  | queue (unmarshal : GoString → Except ErrText QueueEntity) (r : Request)

/-- Running an invocation: the routes of `main`. -/
def Invocation.run (b : Broker) : Invocation → Outcome
  | .exchange u r => ExchangeHandler b u r
  | .queueBind u r => QueueBindHandler b u r
  | .publish u r => PublishHandler b u r
  | .queue u r => QueueHandler b u r

/-! ## Vocabulary of the specification -/

/-- A fragment that already has both braces: it starts with an opening brace
and ends with a closing brace. -/
def wrapped (v : GoString) : Bool := HasPrefix v [lbrace] && HasSuffix v [rbrace]

/-- The repaired form of a fragment, in the words of the specification: an
opening brace is put in front if it is missing, a closing brace behind if it is
missing. -/
def repair (v : GoString) : GoString :=
  (if HasPrefix v [lbrace] then [] else [lbrace]) ++ v ++
    (if HasSuffix v [rbrace] then [] else [rbrace])

/-- A fragment between braces. -/
def wrap (a : GoString) : GoString := [lbrace] ++ a ++ [rbrace]

/-- The batch of the fragments `as`, as a client writes it: every fragment
between braces, commas between them, the whole between square brackets. -/
def batch (as : List GoString) : GoString :=
  lit "[" ++ List.intercalate [comma] (as.map wrap) ++ lit "]"

/-- A string without braces. -/
def braceFree (a : GoString) : Prop := lbrace ∉ a ∧ rbrace ∉ a

instance braceFreeDecidable (a : GoString) : Decidable (braceFree a) := by
  unfold braceFree
  infer_instance

/-- The stripped remainder of an input of at least two bytes: the input
without its first and its last byte. -/
def stripped (s : GoString) : GoString := (s.take (s.length - 1)).drop 1

/-- The loop shared by `BindQueue`, `UnBindQueue` and the publish loop, on the
calls it is about to make: make them in order, leaving at the first error. -/
def callEach (b : Broker) : List BrokerCall → RabbitMQ → RabbitMQ × Option ErrText
  | [], r => (r, none)
  | c :: cs, r =>
    match r.call b c with
    | (r, some err) => (r, some err)
    | (r, none) => callEach b cs r

/-- The broker accepts the call number `i` (from 0) of `calls`, made after the
calls `pre` and the calls of `calls` before it. -/
def accepted (b : Broker) (pre calls : List BrokerCall) (i : Nat) : Prop :=
  ∀ c ∈ calls[i]?, b (pre ++ calls.take i) c = none

instance acceptedDecidable (b : Broker) (pre calls : List BrokerCall) (i : Nat) :
    Decidable (accepted b pre calls i) := by
  unfold accepted
  infer_instance

/-- The broker rejects the call number `i` (from 0) of `calls` with the error
`e`, made after the calls `pre` and the calls of `calls` before it. -/
def rejected (b : Broker) (pre calls : List BrokerCall) (i : Nat) (e : ErrText) : Prop :=
  ∃ c ∈ calls[i]?, b (pre ++ calls.take i) c = some e

instance rejectedDecidable (b : Broker) (pre calls : List BrokerCall) (i : Nat) (e : ErrText) :
    Decidable (rejected b pre calls i e) := by
  unfold rejected
  infer_instance

/-- The bind calls for the routing keys `keys`, in order. -/
def bindCalls (queue exchange : GoString) (nowait : Bool) (keys : List GoString) :
    List BrokerCall :=
  keys.map (fun key => BrokerCall.QueueBind queue key exchange nowait)

/-- The unbind calls for the routing keys `keys`, in order. -/
def unbindCalls (queue exchange : GoString) (keys : List GoString) : List BrokerCall :=
  keys.map (fun key => BrokerCall.QueueUnbind queue key exchange)

/-- The publish calls for the fragments `fs` of the entity, in order: the
entity's exchange, key, delivery mode and priority, the fragment as body. -/
def publishCalls (entity : MessageEntity) (fs : List GoString) : List BrokerCall :=
  fs.map (fun f => BrokerCall.Publish entity.Exchange entity.Key false false
    entity.DeliveryMode entity.Priority f)

/-- `Connect` succeeds on a fresh session. -/
def connects (b : Broker) : Prop := (RabbitMQ.Connect b ⟨[]⟩).2 = none

instance connectsDecidable (b : Broker) : Decidable (connects b) := by
  unfold connects
  infer_instance

/-- The invocation is on the streaming route: `QueueHandler` on `GET`. -/
def Invocation.streamingRoute : Invocation → Prop
  | .queue _ r => r.Method = lit "GET"
  | _ => False

/-- The invocation is not rejected before `Connect`: the method is one the
handler serves, the body is read and the entity is decoded. -/
def Invocation.reachesConnect : Invocation → Prop
  | .exchange u r =>
    (r.Method = lit "POST" ∨ r.Method = lit "DELETE") ∧ ∃ body, r.Body = .ok body ∧
      ∃ entity, u body = .ok entity
  | .queueBind u r =>
    (r.Method = lit "POST" ∨ r.Method = lit "DELETE") ∧ ∃ body, r.Body = .ok body ∧
      ∃ entity, u body = .ok entity
  | .publish u r =>
    r.Method = lit "POST" ∧ ∃ body, r.Body = .ok body ∧ ∃ entity, u body = .ok entity
  | .queue u r =>
    (r.Method = lit "POST" ∨ r.Method = lit "DELETE") ∧ ∃ body, r.Body = .ok body ∧
      ∃ entity, u body = .ok entity

/-! ## Sample inputs -/

/-- A publish request entity whose body is the batch `[{a},{b},{c}]`. -/
def sampleEntity : MessageEntity :=
  ⟨lit "ex", lit "key", 2, 0, lit "[\x7ba\x7d,\x7bb\x7d,\x7bc\x7d]"⟩

/-- A broker that rejects every publish whose body is `{b}` and every bind or
unbind of the key `k2`, and accepts every other call. -/
def sampleBroker : Broker := fun _ c =>
  match c with
  | .Publish _ _ _ _ _ _ body => if body = lit "\x7bb\x7d" then some (lit "refused") else none
  | .QueueBind _ key _ _ => if key = lit "k2" then some (lit "refused") else none
  | .QueueUnbind _ key _ => if key = lit "k2" then some (lit "refused") else none
  | _ => none

/-- A broker that accepts every call. -/
def acceptingBroker : Broker := fun _ _ => none

/-- A `POST` request; its body is not looked at by the sample decoder. -/
def samplePost : Request := ⟨lit "POST", .ok [], []⟩

/-- A broker that refuses the dial. -/
def refusingBroker : Broker := fun _ c =>
  match c with
  | .Dial => some (lit "no route")
  | _ => none


/-! ## Lemmas on the string functions -/

theorem Index_none_of_not_infix (sub : GoString) :
    ∀ s : GoString, ¬ sub <:+: s → Index s sub = none := by
  intro s
  induction s with
  | nil =>
    intro h
    unfold Index
    split
    · rename_i hp
      exact absurd (List.IsPrefix.isInfix (List.isPrefixOf_iff_prefix.mp hp)) h
    · rfl
  | cons c t ih =>
    intro h
    unfold Index
    split
    · rename_i hp
      exact absurd (List.IsPrefix.isInfix (List.isPrefixOf_iff_prefix.mp hp)) h
    · have ht : ¬ sub <:+: t := fun hi => h (hi.trans (List.suffix_cons c t).isInfix)
      rw [ih ht]; rfl

theorem Index_none_iff (sub s : GoString) : Index s sub = none ↔ ¬ sub <:+: s := by
  constructor
  · intro h hin
    induction s with
    | nil =>
      unfold Index at h
      split at h
      · simp at h
      · rename_i hp
        have hsub : sub = [] := List.eq_nil_of_infix_nil hin
        exact hp (by simp [hsub])
    | cons c t ih =>
      unfold Index at h
      split at h
      · simp at h
      · rename_i hp
        rcases List.infix_cons_iff.mp hin with hpre | hinf
        · exact hp (List.isPrefixOf_iff_prefix.mpr hpre)
        · cases hI : Index t sub with
          | none => exact ih hI hinf
          | some k => simp [hI] at h
  · exact Index_none_of_not_infix sub s

theorem Index_le_length (sub : GoString) :
    ∀ (s : GoString) (m : Nat), Index s sub = some m → m + sub.length ≤ s.length := by
  intro s
  induction s with
  | nil =>
    intro m h
    unfold Index at h
    split at h
    · rename_i hp
      have := (List.isPrefixOf_iff_prefix.mp hp).length_le
      simp at h; subst h; simpa using this
    · simp at h
  | cons c t ih =>
    intro m h
    unfold Index at h
    split at h
    · rename_i hp
      have := (List.isPrefixOf_iff_prefix.mp hp).length_le
      simp at h; subst h; simpa using this
    · cases hI : Index t sub with
      | none => simp [hI] at h
      | some k =>
        simp [hI] at h
        have := ih k hI
        subst h
        simp; omega

theorem Index_some_spec (sub : GoString) :
    ∀ (s : GoString) (m : Nat), Index s sub = some m →
      s = s.take m ++ sub ++ s.drop (m + sub.length) := by
  intro s
  induction s with
  | nil =>
    intro m h
    unfold Index at h
    split at h
    · rename_i hp
      obtain ⟨t, ht⟩ := List.isPrefixOf_iff_prefix.mp hp
      have hsub : sub = [] := (List.append_eq_nil.mp ht).1
      simp [hsub]
    · simp at h
  | cons c t ih =>
    intro m h
    unfold Index at h
    split at h
    · rename_i hp
      obtain ⟨u, hu⟩ := List.isPrefixOf_iff_prefix.mp hp
      simp only [Option.some.injEq] at h
      subst h
      rw [← hu]
      simp
    · cases hI : Index t sub with
      | none => simp [hI] at h
      | some k =>
        simp only [hI, Option.map_some', Option.some.injEq] at h
        subst h
        have := ih k hI
        have e : k + 1 + sub.length = (k + sub.length) + 1 := by omega
        rw [e, List.take_succ_cons, List.drop_succ_cons, List.cons_append, List.cons_append,
          ← this]

theorem splitLoop_fuel (sp : GoString) (hsp : sp ≠ []) :
    ∀ (f g : Nat) (s : GoString), s.length ≤ f → s.length ≤ g →
      splitLoop f s sp = splitLoop g s sp := by
  have hpos : 0 < sp.length := List.length_pos.mpr hsp
  intro f
  induction f with
  | zero =>
    intro g s hf _
    have hs : s = [] := List.length_eq_zero.mp (Nat.le_zero.mp hf)
    subst hs
    have hI : Index [] sp = none := by
      cases hI : Index [] sp with
      | none => rfl
      | some m =>
        have := Index_le_length sp [] m hI
        simp only [List.length_nil] at this
        exfalso; omega
    cases g with
    | zero => rfl
    | succ g => simp [splitLoop, hI]
  | succ f ih =>
    intro g s hf hg
    cases hI : Index s sp with
    | none =>
      cases g with
      | zero => simp [splitLoop, hI]
      | succ g => simp [splitLoop, hI]
    | some m =>
      have hm := Index_le_length sp s m hI
      cases g with
      | zero => omega
      | succ g =>
        simp only [splitLoop, hI]
        congr 1
        apply ih <;> simp <;> omega

theorem splitLoop_eq_Split (sp : GoString) (hsp : sp ≠ []) (f : Nat) (s : GoString)
    (hf : s.length ≤ f) : splitLoop f s sp = Split s sp :=
  splitLoop_fuel sp hsp f s.length s hf (Nat.le_refl _)

theorem splitLoop_ne_nil (sp : GoString) (f : Nat) (s : GoString) : splitLoop f s sp ≠ [] := by
  cases f with
  | zero => simp [splitLoop]
  | succ f =>
    unfold splitLoop
    split <;> simp

theorem Split_of_not_infix (sp s : GoString) (h : ¬ sp <:+: s) : Split s sp = [s] := by
  unfold Split
  cases s.length with
  | zero => rfl
  | succ n => simp [splitLoop, Index_none_of_not_infix sp s h]

theorem splitLoop_join (sp : GoString) :
    ∀ (f : Nat) (s : GoString), List.intercalate sp (splitLoop f s sp) = s := by
  intro f
  induction f with
  | zero => intro s; simp [splitLoop, List.intercalate]
  | succ f ih =>
    intro s
    unfold splitLoop
    cases hI : Index s sp with
    | none => simp [List.intercalate]
    | some m =>
      dsimp only
      have hrest := ih (s.drop (m + sp.length))
      have hspec := Index_some_spec sp s m hI
      obtain ⟨p, ps, hp⟩ := List.exists_cons_of_ne_nil
        (splitLoop_ne_nil sp f (s.drop (m + sp.length)))
      rw [hp] at hrest ⊢
      simp only [List.intercalate, List.intersperse_cons_cons, List.flatten_cons] at hrest ⊢
      rw [hrest]
      simpa using hspec.symm

theorem Split_join (s sp : GoString) : List.intercalate sp (Split s sp) = s :=
  splitLoop_join sp s.length s

theorem not_infix_of_not_mem (x : Byte) (sp s : GoString) (hx : x ∈ sp) (hs : x ∉ s) :
    ¬ sp <:+: s := fun h => hs (h.subset hx)

theorem Index_append_sep (x rest : GoString) (hx : rbrace ∉ x) :
    Index (x ++ sep ++ rest) sep = some x.length := by
  induction x with
  | nil => simp [sep, Index, List.isPrefixOf]
  | cons c x ih =>
    have hc : c ≠ rbrace := fun h => hx (by simp [h])
    have hx2 : rbrace ∉ x := fun h => hx (List.mem_cons_of_mem c h)
    have hne : (rbrace == c) = false := by
      simp only [beq_eq_false_iff_ne, ne_eq]
      exact fun h => hc h.symm
    have hpre : sep.isPrefixOf (c :: (x ++ sep ++ rest)) = false := by
      simp [sep, List.isPrefixOf, hne]
    show Index (c :: (x ++ sep ++ rest)) sep = _
    rw [Index, hpre, ih hx2]
    rfl

theorem Split_append_sep (x rest : GoString) (hx : rbrace ∉ x) :
    Split (x ++ sep ++ rest) sep = x :: Split rest sep := by
  have hlen : (x ++ sep ++ rest).length = (x.length + 2 + rest.length) + 1 := by
    simp [sep]; omega
  unfold Split
  rw [hlen]
  simp only [splitLoop, Index_append_sep x rest hx]
  have h1 : List.take x.length (x ++ sep ++ rest) = x := by simp
  have h2 : List.drop (x.length + sep.length) (x ++ sep ++ rest) = rest := by
    have : x.length + sep.length = (x ++ sep).length := by simp
    rw [this, List.drop_left]
  rw [h1, h2]
  congr 1
  exact splitLoop_fuel sep (by decide) _ _ rest (by omega) (Nat.le_refl _)

theorem intercalate_wrap (b : GoString) (cs : List GoString) :
    List.intercalate [comma] ((b :: cs).map wrap) =
      wrap b ++ (cs.map (fun c => comma :: wrap c)).flatten := by
  induction cs generalizing b with
  | nil => simp [List.intercalate]
  | cons c cs ih =>
    have := ih c
    simp only [List.intercalate, List.map_cons, List.intersperse_cons_cons, List.flatten_cons] at this ⊢
    rw [this]
    simp

/-! ## Lemmas on the batch decoder -/

theorem HasPrefix_lbrace_iff (v : GoString) :
    HasPrefix v [lbrace] = true ↔ ∃ t, v = lbrace :: t := by
  cases v with
  | nil => simp [HasPrefix]
  | cons c t =>
    simp [HasPrefix, List.isPrefixOf]
    constructor
    · intro h; exact h.symm
    · intro h; exact h.symm

theorem HasSuffix_rbrace_iff (v : GoString) :
    HasSuffix v [rbrace] = true ↔ ∃ t, v = t ++ [rbrace] := by
  unfold HasSuffix
  rw [List.isSuffixOf_iff_suffix]
  constructor
  · rintro ⟨t, ht⟩; exact ⟨t, ht.symm⟩
  · rintro ⟨t, ht⟩; exact ⟨t, ht.symm⟩

theorem HasPrefix_false_of_not_mem (v : GoString) (h : lbrace ∉ v) :
    HasPrefix v [lbrace] = false := by
  cases hp : HasPrefix v [lbrace] with
  | false => rfl
  | true =>
    obtain ⟨t, ht⟩ := (HasPrefix_lbrace_iff v).mp hp
    exact absurd (by rw [ht]; simp) h

theorem HasSuffix_false_of_not_mem (v : GoString) (h : rbrace ∉ v) :
    HasSuffix v [rbrace] = false := by
  cases hs : HasSuffix v [rbrace] with
  | false => rfl
  | true =>
    obtain ⟨t, ht⟩ := (HasSuffix_rbrace_iff v).mp hs
    exact absurd (by rw [ht]; simp) h

theorem slice_strip (s : GoString) (h : 2 ≤ s.length) :
    slice s 1 ((s.length : Int) - 1) = some ((s.take (s.length - 1)).drop 1) := by
  unfold slice
  have h1 : (0 : Int) ≤ 1 ∧ (1 : Int) ≤ (s.length : Int) - 1 ∧
      (s.length : Int) - 1 ≤ (s.length : Int) := by omega
  rw [if_pos h1]
  have h2 : ((s.length : Int) - 1).toNat = s.length - 1 := by omega
  rw [h2]; rfl

theorem slice_short (s : GoString) (h : s.length < 2) :
    slice s 1 ((s.length : Int) - 1) = none := by
  unfold slice
  have h1 : ¬ ((0 : Int) ≤ 1 ∧ (1 : Int) ≤ (s.length : Int) - 1 ∧
      (s.length : Int) - 1 ≤ (s.length : Int)) := by omega
  rw [if_neg h1]

theorem formbody_of_length (s : GoString) (h : 2 ≤ s.length) :
    formbody s = .ok ((Split (stripped s) sep).foldl formbodyStep
      (List.replicate (Split (stripped s) sep).length [])) := by
  simp only [formbody, mysplit, slice_strip s h, stripped]

theorem formbody_short (s : GoString) (h : s.length < 2) :
    formbody s = .error .InputTooShort := by
  simp only [formbody, mysplit, slice_short s h]

theorem strip_enclosed (c1 c2 : Byte) (v : GoString) :
    stripped (c1 :: (v ++ [c2])) = v := by
  simp [stripped]

theorem formbodyStep_eq (acc : List GoString) (v : GoString) :
    formbodyStep acc v = acc ++ (if wrapped v then [] else [repair v]) := by
  unfold formbodyStep wrapped repair
  cases HasPrefix v [lbrace] <;> cases HasSuffix v [rbrace] <;> simp

theorem foldl_formbodyStep (vs : List GoString) :
    ∀ acc : List GoString,
      vs.foldl formbodyStep acc = acc ++ (vs.filter (fun v => !wrapped v)).map repair := by
  induction vs with
  | nil => intro acc; simp
  | cons v vs ih =>
    intro acc
    rw [List.foldl_cons, ih, formbodyStep_eq]
    cases hw : wrapped v <;> simp [List.filter_cons, hw]

theorem repair_wrapped (v : GoString) :
    HasPrefix (repair v) [lbrace] = true ∧ HasSuffix (repair v) [rbrace] = true := by
  constructor
  · rw [HasPrefix_lbrace_iff]
    unfold repair
    cases hp : HasPrefix v [lbrace]
    · exact ⟨v ++ (if HasSuffix v [rbrace] then [] else [rbrace]), by simp⟩
    · obtain ⟨t, ht⟩ := (HasPrefix_lbrace_iff v).mp hp
      exact ⟨t ++ (if HasSuffix v [rbrace] then [] else [rbrace]), by simp [ht]⟩
  · rw [HasSuffix_rbrace_iff]
    unfold repair
    cases hs : HasSuffix v [rbrace]
    · exact ⟨(if HasPrefix v [lbrace] then [] else [lbrace]) ++ v, by simp⟩
    · obtain ⟨t, ht⟩ := (HasSuffix_rbrace_iff v).mp hs
      exact ⟨(if HasPrefix v [lbrace] then [] else [lbrace]) ++ t, by simp [ht]⟩

theorem repair_ne_nil (v : GoString) : repair v ≠ [] := by
  obtain ⟨t, ht⟩ := (HasPrefix_lbrace_iff _).mp (repair_wrapped v).1
  rw [ht]; simp

theorem step_plain (acc : List GoString) (a : GoString) (ha : braceFree a) :
    formbodyStep acc a = acc ++ [wrap a] := by
  rw [formbodyStep_eq]
  simp [wrapped, repair, wrap, HasPrefix_false_of_not_mem a ha.1,
    HasSuffix_false_of_not_mem a ha.2]

theorem step_closing (acc : List GoString) (a : GoString) (ha : braceFree a) :
    formbodyStep acc (a ++ [rbrace]) = acc ++ [wrap a] := by
  have hp : HasPrefix (a ++ [rbrace]) [lbrace] = false := by
    apply HasPrefix_false_of_not_mem
    simp only [List.mem_append, List.mem_singleton, not_or]
    exact ⟨ha.1, by decide⟩
  have hs : HasSuffix (a ++ [rbrace]) [rbrace] = true :=
    (HasSuffix_rbrace_iff _).mpr ⟨a, rfl⟩
  rw [formbodyStep_eq]
  simp only [wrapped, repair, hp, hs]
  simp [wrap]

theorem step_opening (acc : List GoString) (a : GoString) (ha : braceFree a) :
    formbodyStep acc (lbrace :: a) = acc ++ [wrap a] := by
  have hp : HasPrefix (lbrace :: a) [lbrace] = true :=
    (HasPrefix_lbrace_iff _).mpr ⟨a, rfl⟩
  have hs : HasSuffix (lbrace :: a) [rbrace] = false := by
    apply HasSuffix_false_of_not_mem
    simp only [List.mem_cons, not_or]
    exact ⟨by decide, ha.2⟩
  rw [formbodyStep_eq]
  simp only [wrapped, repair, hp, hs]
  simp [wrap]

theorem formbody_single (c1 c2 : Byte) (v : GoString) (h : ¬ sep <:+: v) :
    formbody (c1 :: (v ++ [c2])) = .ok (formbodyStep [[]] v) := by
  have hl : 2 ≤ (c1 :: (v ++ [c2])).length := by simp
  rw [formbody_of_length _ hl, strip_enclosed, Split_of_not_infix sep v h]
  rfl

theorem formbody_eq (s : GoString) (h : 2 ≤ s.length) :
    formbody s = .ok (List.replicate (Split (stripped s) sep).length [] ++
      ((Split (stripped s) sep).filter (fun v => !wrapped v)).map repair) := by
  rw [formbody_of_length s h, foldl_formbodyStep]

theorem Split_batch_tail (cs : List GoString) :
    ∀ (b : GoString) (acc : List GoString), braceFree b → (∀ c ∈ cs, braceFree c) →
      (Split (b ++ [rbrace] ++ (cs.map (fun c => comma :: wrap c)).flatten) sep).length
          = cs.length + 1 ∧
      (Split (b ++ [rbrace] ++ (cs.map (fun c => comma :: wrap c)).flatten) sep).foldl
          formbodyStep acc = acc ++ (b :: cs).map wrap := by
  induction cs with
  | nil =>
    intro b acc hb _
    have hno : ¬ sep <:+: b ++ [rbrace] := by
      apply not_infix_of_not_mem lbrace sep _ (by decide)
      simp only [List.mem_append, List.mem_singleton, not_or]
      exact ⟨hb.1, by decide⟩
    simp only [List.map_nil, List.flatten_nil, List.append_nil, Split_of_not_infix sep _ hno]
    exact ⟨rfl, by simp [step_closing acc b hb]⟩
  | cons c cs ih =>
    intro b acc hb hcs
    have hc : braceFree c := hcs c (List.mem_cons_self c cs)
    have hcs2 : ∀ d ∈ cs, braceFree d := fun d hd => hcs d (List.mem_cons_of_mem c hd)
    have hstr : b ++ [rbrace] ++ ((c :: cs).map (fun c => comma :: wrap c)).flatten =
        b ++ sep ++ (c ++ [rbrace] ++ (cs.map (fun c => comma :: wrap c)).flatten) := by
      simp [sep, wrap]
    rw [hstr, Split_append_sep b _ hb.2]
    obtain ⟨h1, h2⟩ := ih c (acc ++ [wrap b]) hc hcs2
    constructor
    · rw [List.length_cons, h1, List.length_cons]
    · rw [List.foldl_cons, step_plain acc b hb, h2]
      simp

theorem batch_eq (as : List GoString) :
    batch as = 91 :: (List.intercalate [comma] (as.map wrap) ++ [93]) := by
  have h1 : lit "[" = [91] := by decide
  have h2 : lit "]" = [93] := by decide
  simp [batch, h1, h2]

/-! ## The claims on the batch decoder -/

/-- C1 (the code on the batches of the claim): for `n ≥ 2` brace-free strings,
`formbody` on the bracketed batch returns `n` empty strings followed by the
`n` strings between braces, in order; this is not the sequence of the `n`
strings between braces alone. -/
theorem formbody_batch (as : List GoString) (hn : 2 ≤ as.length)
    (hbf : ∀ a ∈ as, braceFree a) :
    formbody (batch as) = .ok (List.replicate as.length [] ++ as.map wrap) ∧
      formbody (batch as) ≠ .ok (as.map wrap) := by
  have hmain : formbody (batch as) = .ok (List.replicate as.length [] ++ as.map wrap) := by
    match as, hn, hbf with
    | a :: c :: cs, _, hbf =>
      have ha : braceFree a := hbf a (by simp)
      have hc : braceFree c := hbf c (by simp)
      have hcs : ∀ d ∈ cs, braceFree d := fun d hd => hbf d (by simp [hd])
      have hstr : List.intercalate [comma] ((a :: c :: cs).map wrap) =
          (lbrace :: a) ++ sep ++ (c ++ [rbrace] ++ (cs.map (fun c => comma :: wrap c)).flatten) := by
        rw [intercalate_wrap]
        simp [sep, wrap]
      have hra : rbrace ∉ lbrace :: a := by
        simp only [List.mem_cons, not_or]
        exact ⟨by decide, ha.2⟩
      rw [batch_eq, formbody_of_length _ (by simp), strip_enclosed, hstr,
        Split_append_sep _ _ hra]
      obtain ⟨h1, h2⟩ := Split_batch_tail cs c
        (List.replicate (cs.length + 1 + 1) [] ++ [wrap a]) hc hcs
      rw [List.length_cons, h1, List.foldl_cons, step_opening _ a ha, h2]
      simp
  refine ⟨hmain, ?_⟩
  rw [hmain]
  intro h
  have hlen := congrArg List.length (Except.ok.inj h)
  simp only [List.length_append, List.length_replicate, List.length_map] at hlen
  omega

/-- Witness of C1 at the input `[{a},{b},{c}]`: six strings, the first three
empty. -/
theorem formbody_batch_witness :
    formbody (lit "[\x7ba\x7d,\x7bb\x7d,\x7bc\x7d]") =
        .ok [[], [], [], lit "\x7ba\x7d", lit "\x7bb\x7d", lit "\x7bc\x7d"] ∧
      formbody (lit "[\x7ba\x7d,\x7bb\x7d,\x7bc\x7d]") ≠
        .ok [lit "\x7ba\x7d", lit "\x7bb\x7d", lit "\x7bc\x7d"] :=
  formbody_batch [lit "a", lit "b", lit "c"] (by decide) (by decide)

/-- C2 (the code on every input of at least two bytes): the output of
`formbody` holds the empty string, which neither starts with an opening brace
nor ends with a closing brace; its non-empty elements all start with an opening
brace and end with a closing brace. -/
theorem formbody_elements (s : GoString) (h : 2 ≤ s.length) :
    ∃ out, formbody s = .ok out ∧
      ([] ∈ out ∧ HasPrefix [] [lbrace] = false ∧ HasSuffix [] [rbrace] = false) ∧
      ∀ x ∈ out, x ≠ [] → HasPrefix x [lbrace] = true ∧ HasSuffix x [rbrace] = true := by
  refine ⟨_, formbody_eq s h, ⟨?_, by decide, by decide⟩, ?_⟩
  · have hk : 0 < (Split (stripped s) sep).length :=
      List.length_pos.mpr (splitLoop_ne_nil sep _ _)
    apply List.mem_append_left
    rw [List.mem_replicate]
    exact ⟨by omega, rfl⟩
  · intro x hx hne
    rcases List.mem_append.mp hx with hx | hx
    · exact absurd (List.eq_of_mem_replicate hx) hne
    · obtain ⟨v, _, hv⟩ := List.mem_map.mp hx
      rw [← hv]
      exact repair_wrapped v

/-- Witness of C2 at the input `[a]`: the output is the empty string and `a`
between braces. -/
theorem formbody_elements_witness :
    ∃ out, formbody (lit "[a]") = .ok out ∧
      ([] ∈ out ∧ HasPrefix [] [lbrace] = false ∧ HasSuffix [] [rbrace] = false) ∧
      ∀ x ∈ out, x ≠ [] → HasPrefix x [lbrace] = true ∧ HasSuffix x [rbrace] = true :=
  formbody_elements (lit "[a]") (by decide)

/-- C3: for every `v` that starts with an opening brace, ends with a closing
brace and does not contain the separator, `formbody` on `v` enclosed in one
leading and one trailing byte drops the fragment: `v` is not in the output and
the output holds no non-empty string. -/
theorem formbody_drops_wrapped_fragment (c1 c2 : Byte) (v : GoString)
    (hp : HasPrefix v [lbrace] = true) (hs : HasSuffix v [rbrace] = true)
    (hsep : ¬ sep <:+: v) :
    ∃ out, formbody (c1 :: (v ++ [c2])) = .ok out ∧ v ∉ out ∧ ∀ x ∈ out, x = [] := by
  refine ⟨[[]], ?_, ?_, ?_⟩
  · rw [formbody_single c1 c2 v hsep, formbodyStep_eq]
    simp [wrapped, hp, hs]
  · obtain ⟨t, ht⟩ := (HasPrefix_lbrace_iff v).mp hp
    simp [ht]
  · intro x hx
    simpa using hx

/-- Witness of C3 at the input `[{a}]`. -/
theorem formbody_drops_wrapped_fragment_witness :
    ∃ out, formbody (91 :: (lit "\x7ba\x7d" ++ [93])) = .ok out ∧
      lit "\x7ba\x7d" ∉ out ∧ ∀ x ∈ out, x = [] :=
  formbody_drops_wrapped_fragment 91 93 (lit "\x7ba\x7d") (by decide) (by decide) (by decide)

/-- C4: for every brace-free `a`, when the only fragment is `a` followed by a
closing brace, `a` preceded by an opening brace, or `a` itself, the output of
`formbody` holds `a` between braces exactly once, and that is its only
non-empty string. -/
theorem formbody_repairs_single_fragment (c1 c2 : Byte) (a f : GoString)
    (ha : braceFree a) (hf : f = a ++ [rbrace] ∨ f = lbrace :: a ∨ f = a) :
    ∃ out, formbody (c1 :: (f ++ [c2])) = .ok out ∧ out.count (wrap a) = 1 ∧
      ∀ x ∈ out, x ≠ [] → x = wrap a := by
  have hout : formbody (c1 :: (f ++ [c2])) = .ok [[], wrap a] := by
    rcases hf with hf | hf | hf
    · have hsep : ¬ sep <:+: f := by
        apply not_infix_of_not_mem lbrace sep f (by decide)
        rw [hf]
        simp only [List.mem_append, List.mem_singleton, not_or]
        exact ⟨ha.1, by decide⟩
      rw [formbody_single c1 c2 f hsep, hf, step_closing [[]] a ha]
      rfl
    · have hsep : ¬ sep <:+: f := by
        apply not_infix_of_not_mem rbrace sep f (by decide)
        rw [hf]
        simp only [List.mem_cons, not_or]
        exact ⟨by decide, ha.2⟩
      rw [formbody_single c1 c2 f hsep, hf, step_opening [[]] a ha]
      rfl
    · have hsep : ¬ sep <:+: f := by
        rw [hf]
        exact not_infix_of_not_mem lbrace sep a (by decide) ha.1
      rw [formbody_single c1 c2 f hsep, hf, step_plain [[]] a ha]
      rfl
  refine ⟨[[], wrap a], hout, ?_, ?_⟩
  · have hne : ([] : GoString) ≠ wrap a := by simp [wrap]
    simp [List.count_cons, hne, hne.symm]
  · intro x hx hne
    simp only [List.mem_cons, List.mem_singleton, List.not_mem_nil, or_false] at hx
    rcases hx with hx | hx
    · exact absurd hx hne
    · exact hx

/-- Witness of C4 at the inputs `[a}]`, `[{a]` and `[a]`. -/
theorem formbody_repairs_single_fragment_witness :
    (∃ out, formbody (91 :: ((lit "a" ++ [rbrace]) ++ [93])) = .ok out ∧
      out.count (wrap (lit "a")) = 1 ∧ ∀ x ∈ out, x ≠ [] → x = wrap (lit "a")) ∧
    (∃ out, formbody (91 :: ((lbrace :: lit "a") ++ [93])) = .ok out ∧
      out.count (wrap (lit "a")) = 1 ∧ ∀ x ∈ out, x ≠ [] → x = wrap (lit "a")) ∧
    (∃ out, formbody (91 :: (lit "a" ++ [93])) = .ok out ∧
      out.count (wrap (lit "a")) = 1 ∧ ∀ x ∈ out, x ≠ [] → x = wrap (lit "a")) :=
  ⟨formbody_repairs_single_fragment 91 93 (lit "a") _ ⟨by decide, by decide⟩ (Or.inl rfl),
   formbody_repairs_single_fragment 91 93 (lit "a") _ ⟨by decide, by decide⟩ (Or.inr (Or.inl rfl)),
   formbody_repairs_single_fragment 91 93 (lit "a") _ ⟨by decide, by decide⟩ (Or.inr (Or.inr rfl))⟩

/-- C5: `formbody` fails with `InputTooShort` exactly when the input has fewer
than two bytes; on every input of at least two bytes it returns a sequence. -/
theorem formbody_fails_iff_short (s : GoString) :
    (formbody s = .error .InputTooShort ↔ s.length < 2) ∧
      (2 ≤ s.length → ∃ out, formbody s = .ok out) := by
  constructor
  · constructor
    · intro h
      by_contra hlen
      rw [formbody_eq s (by omega)] at h
      exact absurd h (by simp)
    · exact formbody_short s
  · intro h
    exact ⟨_, formbody_eq s h⟩

/-- Witness of C5 at the inputs `x` and `[]`. -/
theorem formbody_fails_iff_short_witness :
    formbody (lit "x") = .error .InputTooShort ∧ ∃ out, formbody (lit "[]") = .ok out :=
  ⟨(formbody_fails_iff_short (lit "x")).1.mpr (by decide),
   (formbody_fails_iff_short (lit "[]")).2 (by decide)⟩

/-- C9, as stated, fails: on the one-byte body `x` `formbody` fails, and on
the body `[{a}]` it returns the empty string alone. -/
theorem formbody_nonempty_body_counterexample :
    (lit "x" ≠ [] ∧ formbody (lit "x") = .error .InputTooShort) ∧
      (lit "[\x7ba\x7d]" ≠ [] ∧ formbody (lit "[\x7ba\x7d]") = .ok [[]]) := by
  decide

/-- C9, amended: on every body of at least two bytes `formbody` succeeds, and
when some fragment of the stripped body is not already wrapped the output holds
a non-empty string that starts with an opening brace and ends with a closing
brace. -/
theorem formbody_repairs_some_fragment (body : GoString) (h : 2 ≤ body.length) :
    ∃ out, formbody body = .ok out ∧
      ((∃ v ∈ Split (stripped body) sep, wrapped v = false) →
        ∃ x ∈ out, x ≠ [] ∧ HasPrefix x [lbrace] = true ∧ HasSuffix x [rbrace] = true) := by
  refine ⟨_, formbody_eq body h, ?_⟩
  rintro ⟨v, hv, hw⟩
  refine ⟨repair v, ?_, repair_ne_nil v, repair_wrapped v⟩
  apply List.mem_append_right
  apply List.mem_map_of_mem
  rw [List.mem_filter]
  exact ⟨hv, by simp [hw]⟩

/-- Witness of the amended C9 at the body `hello`, which is no batch: its one
fragment `ell` is repaired. -/
theorem formbody_repairs_some_fragment_witness :
    ∃ out, formbody (lit "hello") = .ok out ∧
      ∃ x ∈ out, x ≠ [] ∧ HasPrefix x [lbrace] = true ∧ HasSuffix x [rbrace] = true :=
  match formbody_repairs_some_fragment (lit "hello") (by decide) with
  | ⟨out, h1, h2⟩ => ⟨out, h1, h2 ⟨lit "ell", by decide, by decide⟩⟩

/-- C10: on an input of at least two bytes whose stripped remainder splits
into the `k` fragments `vs`, `k` is at least one and `formbody` returns `k`
empty strings followed by the repaired forms, in order, of the fragments that
are not already wrapped; the output has `k` plus the number of such fragments
elements, between `k` and `2k`, and is never empty. -/
theorem formbody_shape (s : GoString) (h : 2 ≤ s.length) :
    1 ≤ (Split (stripped s) sep).length ∧
    ∃ out, formbody s = .ok out ∧
      out = List.replicate (Split (stripped s) sep).length [] ++
        ((Split (stripped s) sep).filter (fun v => !wrapped v)).map repair ∧
      out.length = (Split (stripped s) sep).length +
        (Split (stripped s) sep).countP (fun v => !wrapped v) ∧
      (Split (stripped s) sep).length ≤ out.length ∧
      out.length ≤ 2 * (Split (stripped s) sep).length ∧
      out ≠ [] := by
  have hk : 1 ≤ (Split (stripped s) sep).length :=
    List.length_pos.mpr (splitLoop_ne_nil sep _ _)
  refine ⟨hk, _, formbody_eq s h, rfl, ?_, ?_, ?_, ?_⟩
  · simp [List.countP_eq_length_filter]
  · simp
  · have := List.length_filter_le (fun v => !wrapped v) (Split (stripped s) sep)
    simp only [List.length_append, List.length_replicate, List.length_map]
    omega
  · intro hnil
    have := congrArg List.length hnil
    simp only [List.length_append, List.length_replicate, List.length_map,
      List.length_nil] at this
    omega

/-- Witness of C10 at the input `[{x}},{b]`: the fragments `{x}` and `b`, the
second one repaired. -/
theorem formbody_shape_witness :
    1 ≤ (Split (stripped (lit "[\x7bx\x7d\x7d,\x7bb]")) sep).length ∧
    ∃ out, formbody (lit "[\x7bx\x7d\x7d,\x7bb]") = .ok out ∧
      out = List.replicate (Split (stripped (lit "[\x7bx\x7d\x7d,\x7bb]")) sep).length [] ++
        ((Split (stripped (lit "[\x7bx\x7d\x7d,\x7bb]")) sep).filter (fun v => !wrapped v)).map
          repair ∧
      out.length = (Split (stripped (lit "[\x7bx\x7d\x7d,\x7bb]")) sep).length +
        (Split (stripped (lit "[\x7bx\x7d\x7d,\x7bb]")) sep).countP (fun v => !wrapped v) ∧
      (Split (stripped (lit "[\x7bx\x7d\x7d,\x7bb]")) sep).length ≤ out.length ∧
      out.length ≤ 2 * (Split (stripped (lit "[\x7bx\x7d\x7d,\x7bb]")) sep).length ∧
      out ≠ [] :=
  formbody_shape (lit "[\x7bx\x7d\x7d,\x7bb]") (by decide)

/-! ## Lemmas on the session and the handlers -/

theorem BindQueue_eq_callEach (b : Broker) (queue exchange : GoString) (nowait : Bool)
    (keys : List GoString) :
    ∀ r, RabbitMQ.BindQueue b queue exchange nowait keys r =
      callEach b (bindCalls queue exchange nowait keys) r := by
  induction keys with
  | nil => intro r; rfl
  | cons key keys ih =>
    intro r
    simp only [RabbitMQ.BindQueue, bindCalls, List.map_cons, callEach]
    cases hb : b r.calls (.QueueBind queue key exchange nowait) with
    | some e => simp [RabbitMQ.call, hb]
    | none => simp only [RabbitMQ.call, hb]; exact ih _

theorem UnBindQueue_eq_callEach (b : Broker) (queue exchange : GoString)
    (keys : List GoString) :
    ∀ r, RabbitMQ.UnBindQueue b queue exchange keys r =
      callEach b (unbindCalls queue exchange keys) r := by
  induction keys with
  | nil => intro r; rfl
  | cons key keys ih =>
    intro r
    simp only [RabbitMQ.UnBindQueue, unbindCalls, List.map_cons, callEach]
    cases hb : b r.calls (.QueueUnbind queue key exchange) with
    | some e => simp [RabbitMQ.call, hb]
    | none => simp only [RabbitMQ.call, hb]; exact ih _

theorem publishLoop_eq_callEach (b : Broker) (entity : MessageEntity) (fs : List GoString) :
    ∀ r, publishLoop b entity fs r = callEach b (publishCalls entity fs) r := by
  induction fs with
  | nil => intro r; rfl
  | cons f fs ih =>
    intro r
    simp only [publishLoop, RabbitMQ.Publish, publishCalls, List.map_cons, callEach]
    cases hb : b r.calls (.Publish entity.Exchange entity.Key false false
        entity.DeliveryMode entity.Priority f) with
    | some e => simp [RabbitMQ.call, hb]
    | none => simp only [RabbitMQ.call, hb]; exact ih _

theorem callEach_rejected (b : Broker) (calls : List BrokerCall) :
    ∀ (r : RabbitMQ) (j : Nat) (e : ErrText),
      (∀ i < j, accepted b r.calls calls i) → rejected b r.calls calls j e →
      callEach b calls r = (⟨r.calls ++ calls.take (j + 1)⟩, some e) := by
  induction calls with
  | nil =>
    intro r j e _ hrej
    obtain ⟨c, hc, _⟩ := hrej
    simp at hc
  | cons c cs ih =>
    intro r j e hacc hrej
    cases j with
    | zero =>
      obtain ⟨c', hc', hb⟩ := hrej
      simp only [List.getElem?_cons_zero, Option.mem_def, Option.some.injEq] at hc'
      subst hc'
      simp only [List.take_zero, List.append_nil] at hb
      simp [callEach, RabbitMQ.call, hb]
    | succ j =>
      have h0 : b r.calls c = none := by
        have := hacc 0 (Nat.succ_pos j) c (by simp)
        simpa using this
      have hacc2 : ∀ i < j, accepted b (r.calls ++ [c]) cs i := by
        intro i hi d hd
        have := hacc (i + 1) (by omega) d (by simpa using hd)
        simpa using this
      have hrej2 : rejected b (r.calls ++ [c]) cs j e := by
        obtain ⟨d, hd, hb⟩ := hrej
        exact ⟨d, by simpa using hd, by simpa using hb⟩
      simp only [callEach, RabbitMQ.call, h0]
      rw [ih ⟨r.calls ++ [c]⟩ j e hacc2 hrej2]
      simp

theorem callEach_accepted (b : Broker) (calls : List BrokerCall) :
    ∀ (r : RabbitMQ), (∀ i < calls.length, accepted b r.calls calls i) →
      callEach b calls r = (⟨r.calls ++ calls⟩, none) := by
  induction calls with
  | nil => intro r _; simp [callEach]
  | cons c cs ih =>
    intro r hacc
    have h0 : b r.calls c = none := by
      have := hacc 0 (by simp) c (by simp)
      simpa using this
    have hacc2 : ∀ i < cs.length, accepted b (r.calls ++ [c]) cs i := by
      intro i hi d hd
      have := hacc (i + 1) (by simp; omega) d (by simpa using hd)
      simpa using this
    simp only [callEach, RabbitMQ.call, h0]
    rw [ih ⟨r.calls ++ [c]⟩ hacc2]
    simp

theorem callEach_calls (b : Broker) (calls : List BrokerCall) :
    ∀ (r : RabbitMQ), ∃ n, (callEach b calls r).1.calls = r.calls ++ calls.take n := by
  induction calls with
  | nil => intro r; exact ⟨0, by simp [callEach]⟩
  | cons c cs ih =>
    intro r
    cases hb : b r.calls c with
    | some e => exact ⟨1, by simp [callEach, RabbitMQ.call, hb]⟩
    | none =>
      obtain ⟨n, hn⟩ := ih ⟨r.calls ++ [c]⟩
      refine ⟨n + 1, ?_⟩
      simp only [callEach, RabbitMQ.call, hb]
      rw [hn]
      simp

theorem callEach_no_close (b : Broker) (calls : List BrokerCall) (r : RabbitMQ)
    (h1 : BrokerCall.Close ∉ r.calls) (h2 : BrokerCall.Close ∉ calls) :
    BrokerCall.Close ∉ (callEach b calls r).1.calls := by
  obtain ⟨n, hn⟩ := callEach_calls b calls r
  rw [hn, List.mem_append]
  rintro (h | h)
  · exact h1 h
  · exact h2 (List.mem_of_mem_take h)

theorem Connect_ok (b : Broker) (h : connects b) :
    RabbitMQ.Connect b ⟨[]⟩ = (⟨[.Dial, .Channel]⟩, none) := by
  unfold connects at h
  unfold RabbitMQ.Connect RabbitMQ.call at h ⊢
  cases hd : b [] .Dial with
  | some e => simp [hd] at h
  | none =>
    simp only [hd] at h ⊢
    simp only [List.nil_append] at h ⊢
    rw [Prod.mk.injEq]
    exact ⟨rfl, h⟩

theorem Connect_fail (b : Broker) (h : ¬ connects b) :
    ∃ r e, RabbitMQ.Connect b ⟨[]⟩ = (r, some e) ∧ BrokerCall.Close ∉ r.calls := by
  unfold connects at h
  unfold RabbitMQ.Connect RabbitMQ.call at h ⊢
  cases hd : b [] .Dial with
  | some e => exact ⟨_, e, rfl, by simp⟩
  | none =>
    simp only [hd] at h ⊢
    cases hc : b ([] ++ [BrokerCall.Dial]) .Channel with
    | some e => exact ⟨_, e, rfl, by simp⟩
    | none => exact absurd hc h

theorem deferClose_calls (b : Broker) (x : RabbitMQ × List WriterCall × Finish)
    (hfin : x.2.2 ≠ .streaming) (hno : BrokerCall.Close ∉ x.1.calls) :
    ∃ ops, (deferClose b x).calls = ops ++ [.Close] ∧ BrokerCall.Close ∉ ops := by
  obtain ⟨rabbit, writes, fin⟩ := x
  refine ⟨rabbit.calls, ?_, hno⟩
  cases fin with
  | streaming => exact absurd rfl hfin
  | returned => rfl
  | panicked => rfl

theorem ExchangeHandler_close (b : Broker) (u : GoString → Except ErrText ExchangeEntity)
    (r : Request) :
    ((Invocation.exchange u r).reachesConnect ∧ connects b →
      ∃ ops, (ExchangeHandler b u r).calls = ops ++ [.Close] ∧ BrokerCall.Close ∉ ops) ∧
    (¬ ((Invocation.exchange u r).reachesConnect ∧ connects b) →
      BrokerCall.Close ∉ (ExchangeHandler b u r).calls) := by
  obtain ⟨method, rbody, form⟩ := r
  unfold ExchangeHandler Invocation.reachesConnect
  dsimp only
  by_cases hm : method = lit "POST" ∨ method = lit "DELETE"
  · rw [if_pos hm]
    cases rbody with
    | error e => simp
    | ok body =>
      dsimp only
      cases hU : u body with
      | error e => simp [hU]
      | ok entity =>
        dsimp only
        by_cases hc : connects b
        · simp only [Connect_ok b hc]
          refine ⟨fun _ => ?_, fun h => absurd ⟨⟨hm, body, rfl, entity, hU⟩, hc⟩ h⟩
          apply deferClose_calls
          · split
            · split <;> simp
            · split
              · split <;> simp
              · simp
          · split
            · split <;> rename_i h <;>
                simp only [RabbitMQ.DeclareExchange, RabbitMQ.call, Prod.mk.injEq] at h <;>
                simp [← h.1]
            · split
              · split <;> rename_i h <;>
                  simp only [RabbitMQ.DeleteExchange, RabbitMQ.call, Prod.mk.injEq] at h <;>
                  simp [← h.1]
              · simp
        · obtain ⟨r', e, hr, hno⟩ := Connect_fail b hc
          simp only [hr]
          exact ⟨fun h => absurd h.2 hc, fun _ => hno⟩
  · rw [if_neg hm]
    simp [hm]

theorem QueueBindHandler_close (b : Broker) (u : GoString → Except ErrText QueueBindEntity)
    (r : Request) :
    ((Invocation.queueBind u r).reachesConnect ∧ connects b →
      ∃ ops, (QueueBindHandler b u r).calls = ops ++ [.Close] ∧ BrokerCall.Close ∉ ops) ∧
    (¬ ((Invocation.queueBind u r).reachesConnect ∧ connects b) →
      BrokerCall.Close ∉ (QueueBindHandler b u r).calls) := by
  obtain ⟨method, rbody, form⟩ := r
  unfold QueueBindHandler Invocation.reachesConnect
  dsimp only
  by_cases hm : method = lit "POST" ∨ method = lit "DELETE"
  · rw [if_pos hm]
    cases rbody with
    | error e => simp
    | ok body =>
      dsimp only
      cases hU : u body with
      | error e => simp [hU]
      | ok entity =>
        dsimp only
        by_cases hc : connects b
        · simp only [Connect_ok b hc]
          refine ⟨fun _ => ?_, fun h => absurd ⟨⟨hm, body, rfl, entity, hU⟩, hc⟩ h⟩
          have hbind := callEach_no_close b
            (bindCalls entity.Queue entity.Exchange entity.NoWait entity.Keys)
            ⟨[.Dial, .Channel]⟩ (by simp) (by simp [bindCalls])
          have hunbind := callEach_no_close b
            (unbindCalls entity.Queue entity.Exchange entity.Keys)
            ⟨[.Dial, .Channel]⟩ (by simp) (by simp [unbindCalls])
          rw [← BindQueue_eq_callEach] at hbind
          rw [← UnBindQueue_eq_callEach] at hunbind
          apply deferClose_calls
          · split
            · split <;> simp
            · split
              · split <;> simp
              · simp
          · split
            · split <;> rename_i h <;> rw [h] at hbind <;> exact hbind
            · split
              · split <;> rename_i h <;> rw [h] at hunbind <;> exact hunbind
              · simp
        · obtain ⟨r', e, hr, hno⟩ := Connect_fail b hc
          simp only [hr]
          exact ⟨fun h => absurd h.2 hc, fun _ => hno⟩
  · rw [if_neg hm]
    simp [hm]

theorem PublishHandler_close (b : Broker) (u : GoString → Except ErrText MessageEntity)
    (r : Request) :
    ((Invocation.publish u r).reachesConnect ∧ connects b →
      ∃ ops, (PublishHandler b u r).calls = ops ++ [.Close] ∧ BrokerCall.Close ∉ ops) ∧
    (¬ ((Invocation.publish u r).reachesConnect ∧ connects b) →
      BrokerCall.Close ∉ (PublishHandler b u r).calls) := by
  obtain ⟨method, rbody, form⟩ := r
  unfold PublishHandler Invocation.reachesConnect
  dsimp only
  by_cases hm : method = lit "POST"
  · rw [if_pos hm]
    cases rbody with
    | error e => simp
    | ok body =>
      dsimp only
      cases hU : u body with
      | error e => simp [hU]
      | ok entity =>
        dsimp only
        by_cases hc : connects b
        · simp only [Connect_ok b hc]
          refine ⟨fun _ => ?_, fun h => absurd ⟨⟨hm, body, rfl, entity, hU⟩, hc⟩ h⟩
          apply deferClose_calls
          · split
            · simp
            · split <;> simp
          · split
            · simp
            · rename_i values _
              have hpub := callEach_no_close b (publishCalls entity values)
                ⟨[.Dial, .Channel]⟩ (by simp) (by simp [publishCalls])
              rw [← publishLoop_eq_callEach] at hpub
              split <;> rename_i h <;> rw [h] at hpub <;> exact hpub
        · obtain ⟨r', e, hr, hno⟩ := Connect_fail b hc
          simp only [hr]
          exact ⟨fun h => absurd h.2 hc, fun _ => hno⟩
  · rw [if_neg hm]
    simp [hm]

theorem QueueHandler_close (b : Broker) (u : GoString → Except ErrText QueueEntity)
    (r : Request) (hns : ¬ (Invocation.queue u r).streamingRoute) :
    ((Invocation.queue u r).reachesConnect ∧ connects b →
      ∃ ops, (QueueHandler b u r).calls = ops ++ [.Close] ∧ BrokerCall.Close ∉ ops) ∧
    (¬ ((Invocation.queue u r).reachesConnect ∧ connects b) →
      BrokerCall.Close ∉ (QueueHandler b u r).calls) := by
  obtain ⟨method, rbody, form⟩ := r
  unfold Invocation.streamingRoute at hns
  unfold QueueHandler Invocation.reachesConnect
  dsimp only at hns ⊢
  by_cases hm : method = lit "POST" ∨ method = lit "DELETE"
  · rw [if_pos hm]
    cases rbody with
    | error e => simp
    | ok body =>
      dsimp only
      cases hU : u body with
      | error e => simp [hU]
      | ok entity =>
        dsimp only
        by_cases hc : connects b
        · simp only [Connect_ok b hc]
          refine ⟨fun _ => ?_, fun h => absurd ⟨⟨hm, body, rfl, entity, hU⟩, hc⟩ h⟩
          apply deferClose_calls
          · split
            · split <;> simp
            · split
              · split <;> simp
              · simp
          · split
            · split <;> rename_i h <;>
                simp only [RabbitMQ.DeclareQueue, RabbitMQ.call, Prod.mk.injEq] at h <;>
                simp [← h.1]
            · split
              · split <;> rename_i h <;>
                  simp only [RabbitMQ.DeleteQueue, RabbitMQ.call, Prod.mk.injEq] at h <;>
                  simp [← h.1]
              · simp
        · obtain ⟨r', e, hr, hno⟩ := Connect_fail b hc
          simp only [hr]
          exact ⟨fun h => absurd h.2 hc, fun _ => hno⟩
  · rw [if_neg hm, if_neg hns]
    simp [hm]

/-! ## The claims on the session and the handlers -/

/-- C6: on `POST`, with the body read, the entity decoded, `Connect`
successful and `formbody` returning the fragments `fs`, `PublishHandler`
publishes the fragments in order with the entity's exchange, key, delivery mode
and priority; when the publish number `k` (from 0) is the first the broker
rejects, exactly the publishes up to it are made and the response is that
error with status 500; when none is rejected all are made and the response
body is `publish message ok`. -/
theorem PublishHandler_publishes_in_order (b : Broker)
    (unmarshal : GoString → Except ErrText MessageEntity) (r : Request)
    (body : GoString) (entity : MessageEntity) (fs : List GoString)
    (hm : r.Method = lit "POST") (hb : r.Body = .ok body)
    (hu : unmarshal body = .ok entity) (hc : connects b)
    (hf : formbody entity.Body = .ok fs) :
    (∀ k e, (∀ i < k, accepted b [.Dial, .Channel] (publishCalls entity fs) i) →
        rejected b [.Dial, .Channel] (publishCalls entity fs) k e →
        PublishHandler b unmarshal r =
          ⟨[.Dial, .Channel] ++ (publishCalls entity fs).take (k + 1) ++ [.Close],
            [.Error e 500], .returned⟩) ∧
    ((∀ i < fs.length, accepted b [.Dial, .Channel] (publishCalls entity fs) i) →
        PublishHandler b unmarshal r =
          ⟨[.Dial, .Channel] ++ publishCalls entity fs ++ [.Close],
            [.Write (lit "publish message ok")], .returned⟩) := by
  have hP : PublishHandler b unmarshal r =
      deferClose b (match callEach b (publishCalls entity fs) ⟨[.Dial, .Channel]⟩ with
        | (rabbit, some err) => (rabbit, [.Error err StatusInternalServerError], .returned)
        | (rabbit, none) => (rabbit, [.Write (lit "publish message ok")], .returned)) := by
    unfold PublishHandler
    rw [if_pos hm, hb]
    simp only [hu, Connect_ok b hc, hf, publishLoop_eq_callEach]
  constructor
  · intro k e hacc hrej
    rw [hP, callEach_rejected b _ ⟨[.Dial, .Channel]⟩ k e hacc hrej]
    simp [deferClose, RabbitMQ.Close, RabbitMQ.call, StatusInternalServerError]
  · intro hacc
    rw [hP, callEach_accepted b _ ⟨[.Dial, .Channel]⟩ (by simpa [publishCalls] using hacc)]
    simp [deferClose, RabbitMQ.Close, RabbitMQ.call]

/-- Witness of C6 on the sample entity, whose body decodes to three empty
strings and `{a}`, `{b}`, `{c}`: the sample broker rejects the fifth publish,
so five publishes are made, then `Close`, and the response is the error with
status 500. -/
theorem PublishHandler_publishes_in_order_witness :
    PublishHandler sampleBroker (fun _ => .ok sampleEntity) samplePost =
      ⟨[.Dial, .Channel,
        .Publish (lit "ex") (lit "key") false false 2 0 [],
        .Publish (lit "ex") (lit "key") false false 2 0 [],
        .Publish (lit "ex") (lit "key") false false 2 0 [],
        .Publish (lit "ex") (lit "key") false false 2 0 (lit "\x7ba\x7d"),
        .Publish (lit "ex") (lit "key") false false 2 0 (lit "\x7bb\x7d"),
        .Close],
       [.Error (lit "refused") 500], .returned⟩ :=
  (PublishHandler_publishes_in_order sampleBroker (fun _ => .ok sampleEntity) samplePost []
    sampleEntity [[], [], [], lit "\x7ba\x7d", lit "\x7bb\x7d", lit "\x7bc\x7d"]
    (by decide) rfl rfl (by decide) (by decide)).1 4 (lit "refused") (by decide) (by decide)

/-- C7: `BindQueue` makes the bind calls of the keys in order; when the call
number `j` (from 0) is the first the broker rejects, exactly the calls up to it
have been made, no later call and no other call is made, and its error is
returned; when the broker accepts them all, all are made and no error is
returned. `UnBindQueue` does the same with the unbind calls. -/
theorem BindQueue_UnBindQueue_short_circuit (b : Broker) (queue exchange : GoString)
    (nowait : Bool) (keys : List GoString) (r : RabbitMQ) :
    ((∀ j e, (∀ i < j, accepted b r.calls (bindCalls queue exchange nowait keys) i) →
        rejected b r.calls (bindCalls queue exchange nowait keys) j e →
        RabbitMQ.BindQueue b queue exchange nowait keys r =
          (⟨r.calls ++ (bindCalls queue exchange nowait keys).take (j + 1)⟩, some e)) ∧
     ((∀ i < keys.length, accepted b r.calls (bindCalls queue exchange nowait keys) i) →
        RabbitMQ.BindQueue b queue exchange nowait keys r =
          (⟨r.calls ++ bindCalls queue exchange nowait keys⟩, none))) ∧
    ((∀ j e, (∀ i < j, accepted b r.calls (unbindCalls queue exchange keys) i) →
        rejected b r.calls (unbindCalls queue exchange keys) j e →
        RabbitMQ.UnBindQueue b queue exchange keys r =
          (⟨r.calls ++ (unbindCalls queue exchange keys).take (j + 1)⟩, some e)) ∧
     ((∀ i < keys.length, accepted b r.calls (unbindCalls queue exchange keys) i) →
        RabbitMQ.UnBindQueue b queue exchange keys r =
          (⟨r.calls ++ unbindCalls queue exchange keys⟩, none))) := by
  refine ⟨⟨?_, ?_⟩, ⟨?_, ?_⟩⟩
  · intro j e hacc hrej
    rw [BindQueue_eq_callEach]
    exact callEach_rejected b _ r j e hacc hrej
  · intro hacc
    rw [BindQueue_eq_callEach]
    exact callEach_accepted b _ r (by simpa [bindCalls] using hacc)
  · intro j e hacc hrej
    rw [UnBindQueue_eq_callEach]
    exact callEach_rejected b _ r j e hacc hrej
  · intro hacc
    rw [UnBindQueue_eq_callEach]
    exact callEach_accepted b _ r (by simpa [unbindCalls] using hacc)

/-- Witness of C7 on the keys `k1`, `k2`, `k3`: the sample broker rejects the
bind of `k2`, so the binds of `k1` and `k2` are made and `k3` is not; the
accepting broker lets all three unbinds through. -/
theorem BindQueue_UnBindQueue_short_circuit_witness :
    RabbitMQ.BindQueue sampleBroker (lit "q") (lit "ex") false
        [lit "k1", lit "k2", lit "k3"] ⟨[.Dial, .Channel]⟩ =
      (⟨[.Dial, .Channel, .QueueBind (lit "q") (lit "k1") (lit "ex") false,
          .QueueBind (lit "q") (lit "k2") (lit "ex") false]⟩, some (lit "refused")) ∧
    RabbitMQ.UnBindQueue acceptingBroker (lit "q") (lit "ex")
        [lit "k1", lit "k2", lit "k3"] ⟨[.Dial, .Channel]⟩ =
      (⟨[.Dial, .Channel, .QueueUnbind (lit "q") (lit "k1") (lit "ex"),
          .QueueUnbind (lit "q") (lit "k2") (lit "ex"),
          .QueueUnbind (lit "q") (lit "k3") (lit "ex")]⟩, none) :=
  ⟨(BindQueue_UnBindQueue_short_circuit sampleBroker (lit "q") (lit "ex") false
      [lit "k1", lit "k2", lit "k3"] ⟨[.Dial, .Channel]⟩).1.1 1 (lit "refused")
      (by decide) (by decide),
   (BindQueue_UnBindQueue_short_circuit acceptingBroker (lit "q") (lit "ex") false
      [lit "k1", lit "k2", lit "k3"] ⟨[.Dial, .Channel]⟩).2.2 (by decide)⟩

/-- C8: on every invocation of a handler outside the streaming route, when the
request is not rejected before `Connect` and `Connect` succeeds, the calls of
the invocation end with `Close` and hold no other `Close`; otherwise no
`Close` is made. -/
theorem Close_exactly_once_and_last (b : Broker) (inv : Invocation)
    (hns : ¬ inv.streamingRoute) :
    (inv.reachesConnect ∧ connects b →
      ∃ ops, (inv.run b).calls = ops ++ [.Close] ∧ BrokerCall.Close ∉ ops) ∧
    (¬ (inv.reachesConnect ∧ connects b) → BrokerCall.Close ∉ (inv.run b).calls) := by
  cases inv with
  | exchange u r => exact ExchangeHandler_close b u r
  | queueBind u r => exact QueueBindHandler_close b u r
  | publish u r => exact PublishHandler_close b u r
  | queue u r => exact QueueHandler_close b u r hns

/-- Witness of C8 on a `POST` of the sample entity to the publish handler:
with the sample broker `Connect` succeeds and the calls end with the only
`Close`; with the broker that refuses the dial no `Close` is made. -/
theorem Close_exactly_once_and_last_witness :
    (∃ ops, ((Invocation.publish (fun _ => .ok sampleEntity) samplePost).run sampleBroker).calls
        = ops ++ [.Close] ∧ BrokerCall.Close ∉ ops) ∧
    BrokerCall.Close ∉
      ((Invocation.publish (fun _ => .ok sampleEntity) samplePost).run refusingBroker).calls :=
  ⟨(Close_exactly_once_and_last sampleBroker
      (Invocation.publish (fun _ => .ok sampleEntity) samplePost) (fun h => h)).1
      ⟨⟨by decide, [], rfl, sampleEntity, rfl⟩, by decide⟩,
   (Close_exactly_once_and_last refusingBroker
      (Invocation.publish (fun _ => .ok sampleEntity) samplePost) (fun h => h)).2
      (fun h => absurd h.2 (by decide))⟩

end RabbitmqHttp
